import Mathlib

/-!
Verification of the MNIST nearest-neighbor / Gaussian-generative-model notebooks.

The nearest-neighbor part embeds `squared_dist`, `find_NN` and `NN_classifier`
from `Nearest_neighbor_MNIST.ipynb`; vectors are lists of integers and the
numpy broadcasting / error behaviour is made explicit through `Option`.
The spatial index (sklearn `BallTree`/`KDTree`) and the scipy multivariate
normal density are library code, so they are modelled from the spec.
The Gaussian part embeds `fit_generative_model` and the scoring cell from the
second notebook over exact rationals.
-/

namespace Mnist

/-- Core of `squared_dist` for equal-length vectors:
`np.sum(np.square(x-y))`. -/
def sumSqDiff (x y : List ℤ) : ℤ :=
  ((List.zipWith (fun a b => a - b) x y).map (fun t => t ^ 2)).sum

/-- `squared_dist(x,y) = np.sum(np.square(x-y))`.  For 1-D numpy arrays the
subtraction `x-y` is elementwise when the lengths agree, broadcasts when one
side has length 1, and raises `ValueError` otherwise (modelled by `none`). -/
def squared_dist (x y : List ℤ) : Option ℤ :=
  if x.length = y.length then some (sumSqDiff x y)
  else if x.length = 1 then some ((y.map (fun b => (x.headI - b) ^ 2)).sum)
  else if y.length = 1 then some ((x.map (fun a => (a - y.headI) ^ 2)).sum)
  else none

/-- Sequencing of a list of fallible computations: a Python list comprehension
raises as soon as any element computation raises. -/
def allSome {α : Type} : List (Option α) → Option (List α)
  | [] => some []
  | none :: _ => none
  | some a :: tl => (allSome tl).map (fun l => a :: l)

/-- First index of the minimum together with the minimum itself
(`np.argmin` returns the first occurrence of the minimum). -/
def argminIdx {α : Type} [LinearOrder α] : List α → Option (α × ℕ)
  | [] => none
  | a :: tl =>
    match argminIdx tl with
    | none => some (a, 0)
    | some (m, j) => if m < a then some (m, j + 1) else some (a, 0)

/-- `np.argmin`: first index achieving the minimum; `ValueError` on an empty
list is modelled by `none`. -/
def np_argmin {α : Type} [LinearOrder α] (l : List α) : Option ℕ :=
  (argminIdx l).map (fun p => p.2)

/-- First index of the maximum together with the maximum itself
(`np.argmax` returns the first occurrence of the maximum). -/
def argmaxIdx {α : Type} [LinearOrder α] : List α → Option (α × ℕ)
  | [] => none
  | a :: tl =>
    match argmaxIdx tl with
    | none => some (a, 0)
    | some (m, j) => if a < m then some (m, j + 1) else some (a, 0)

/-- `np.argmax`: first index achieving the maximum. -/
def np_argmax {α : Type} [LinearOrder α] (l : List α) : Option ℕ :=
  (argmaxIdx l).map (fun p => p.2)

/-- `find_NN`: distances from `x` to `train_data[i]` for
`i in range(len(train_labels))`, then `np.argmin`. -/
def nn_dists (train_data : List (List ℤ)) (train_labels : List ℕ)
    (x : List ℤ) : List (Option ℤ) :=
  (List.range train_labels.length).map (fun i => squared_dist x (train_data.getD i []))

/-- `find_NN(x)`: returns the index of the nearest neighbour of `x` in
`train_data`, or fails if a distance computation or `np.argmin` fails. -/
def find_NN (train_data : List (List ℤ)) (train_labels : List ℕ)
    (x : List ℤ) : Option ℕ :=
  match allSome (nn_dists train_data train_labels x) with
  | none => none
  | some ds => np_argmin ds

/-- `NN_classifier(x) = train_labels[find_NN(x)]`. -/
def NN_classifier (train_data : List (List ℤ)) (train_labels : List ℕ)
    (x : List ℤ) : Option ℕ :=
  (find_NN train_data train_labels x).map (fun i => train_labels.getD i 0)

theorem argminIdx_eq_none {α : Type} [LinearOrder α] (l : List α) :
    argminIdx l = none ↔ l = [] := by
  cases l with
  | nil => simp [argminIdx]
  | cons a tl =>
    simp only [argminIdx]
    cases argminIdx tl with
    | none => simp
    | some p =>
      rcases p with ⟨m, j⟩
      by_cases h : m < a <;> simp [h]

/-- Characterisation of `argminIdx`: it returns the first index achieving the
minimum of the list. -/
theorem argminIdx_spec {α : Type} [LinearOrder α] (d0 : α) :
    ∀ l : List α, l ≠ [] →
      ∃ m j, argminIdx l = some (m, j) ∧ j < l.length ∧ l.getD j d0 = m ∧
        (∀ t, t < l.length → m ≤ l.getD t d0) ∧
        (∀ t, t < j → m < l.getD t d0) := by
  intro l
  induction l with
  | nil => intro h; exact absurd rfl h
  | cons a tl ih =>
    intro _
    cases htl : argminIdx tl with
    | none =>
      have htl' : tl = [] := (argminIdx_eq_none tl).mp htl
      refine ⟨a, 0, ?_, ?_, ?_, ?_, ?_⟩
      · simp [argminIdx, htl]
      · simp
      · simp
      · intro t ht
        subst htl'
        simp at ht
        subst ht
        simp
      · intro t ht; omega
    | some p =>
      rcases p with ⟨m, j⟩
      have htl_ne : tl ≠ [] := by
        intro h
        rw [h] at htl
        simp [argminIdx] at htl
      obtain ⟨m', j', hm, hj, hget, hle, hlt⟩ := ih htl_ne
      rw [htl] at hm
      injection hm with hm
      injection hm with hm1 hm2
      subst hm1; subst hm2
      by_cases hcmp : m < a
      · refine ⟨m, j + 1, ?_, ?_, ?_, ?_, ?_⟩
        · simp [argminIdx, htl, hcmp]
        · simpa using Nat.succ_lt_succ hj
        · simpa using hget
        · intro t ht
          rcases t with _ | t
          · simpa using le_of_lt hcmp
          · exact hle t (by simpa using Nat.lt_of_succ_lt_succ ht)
        · intro t ht
          rcases t with _ | t
          · simpa using hcmp
          · exact hlt t (Nat.lt_of_succ_lt_succ ht)
      · refine ⟨a, 0, ?_, ?_, ?_, ?_, ?_⟩
        · simp [argminIdx, htl, hcmp]
        · simp
        · simp
        · intro t ht
          rcases t with _ | t
          · simp
          · have : a ≤ m := le_of_not_lt hcmp
            exact le_trans this (hle t (by simpa using Nat.lt_of_succ_lt_succ ht))
        · intro t ht; omega

theorem argmaxIdx_eq_none {α : Type} [LinearOrder α] (l : List α) :
    argmaxIdx l = none ↔ l = [] := by
  cases l with
  | nil => simp [argmaxIdx]
  | cons a tl =>
    simp only [argmaxIdx]
    cases argmaxIdx tl with
    | none => simp
    | some p =>
      rcases p with ⟨m, j⟩
      by_cases h : a < m <;> simp [h]

/-- Characterisation of `argmaxIdx`: it returns the first index achieving the
maximum of the list. -/
theorem argmaxIdx_spec {α : Type} [LinearOrder α] (d0 : α) :
    ∀ l : List α, l ≠ [] →
      ∃ m j, argmaxIdx l = some (m, j) ∧ j < l.length ∧ l.getD j d0 = m ∧
        (∀ t, t < l.length → l.getD t d0 ≤ m) ∧
        (∀ t, t < j → l.getD t d0 < m) := by
  intro l
  induction l with
  | nil => intro h; exact absurd rfl h
  | cons a tl ih =>
    intro _
    cases htl : argmaxIdx tl with
    | none =>
      have htl' : tl = [] := (argmaxIdx_eq_none tl).mp htl
      refine ⟨a, 0, ?_, ?_, ?_, ?_, ?_⟩
      · simp [argmaxIdx, htl]
      · simp
      · simp
      · intro t ht
        subst htl'
        simp at ht
        subst ht
        simp
      · intro t ht; omega
    | some p =>
      rcases p with ⟨m, j⟩
      have htl_ne : tl ≠ [] := by
        intro h
        rw [h] at htl
        simp [argmaxIdx] at htl
      obtain ⟨m', j', hm, hj, hget, hle, hlt⟩ := ih htl_ne
      rw [htl] at hm
      injection hm with hm
      injection hm with hm1 hm2
      subst hm1; subst hm2
      by_cases hcmp : a < m
      · refine ⟨m, j + 1, ?_, ?_, ?_, ?_, ?_⟩
        · simp [argmaxIdx, htl, hcmp]
        · simpa using Nat.succ_lt_succ hj
        · simpa using hget
        · intro t ht
          rcases t with _ | t
          · simpa using le_of_lt hcmp
          · exact hle t (by simpa using Nat.lt_of_succ_lt_succ ht)
        · intro t ht
          rcases t with _ | t
          · simpa using hcmp
          · exact hlt t (Nat.lt_of_succ_lt_succ ht)
      · refine ⟨a, 0, ?_, ?_, ?_, ?_, ?_⟩
        · simp [argmaxIdx, htl, hcmp]
        · simp
        · simp
        · intro t ht
          rcases t with _ | t
          · simp
          · have : m ≤ a := le_of_not_lt hcmp
            exact le_trans (hle t (by simpa using Nat.lt_of_succ_lt_succ ht)) this
        · intro t ht; omega

/-! ### Spatial index (spec-modelled)

The notebook builds its nearest-neighbour index with sklearn's `BallTree` /
`KDTree`, which are library code not present in the repository.  The structure
below is modelled from the spec: `build` recursively partitions the training
set into two child subsets until a leaf-size threshold is reached, each node
records a bounding region of all points below it, and `query` traverses from
the root with branch-and-bound pruning, skipping a subtree when the distance
from the query to the nearest possible point of its bounding region exceeds
the current best distance.  Bounding regions are axis-aligned boxes (the
k-d-tree variant); leaves hold back-references into the training set by
index. -/

/-- Modelled from the spec: squared distance from coordinate `q` to the
interval `[lo, hi]` (nearest possible point of the bounding region, one
axis). -/
def coordContrib (q lo hi : ℤ) : ℤ :=
  if q < lo then (lo - q) ^ 2 else if hi < q then (q - hi) ^ 2 else 0

/-- Modelled from the spec: squared distance from the query to the nearest
possible point of an axis-aligned bounding box. -/
def minDistBox (q lo hi : List ℤ) : ℤ :=
  ((List.range q.length).map
    (fun c => coordContrib (q.getD c 0) (lo.getD c 0) (hi.getD c 0))).sum

/-- Grow a bounding box to also cover `row` (elementwise min/max). -/
def growBox (acc : List ℤ × List ℤ) (row : List ℤ) : List ℤ × List ℤ :=
  (List.zipWith min acc.1 row, List.zipWith max acc.2 row)

/-- Bounding box of a nonempty batch of rows. -/
def boxOf (r0 : List ℤ) (rest : List (List ℤ)) : List ℤ × List ℤ :=
  rest.foldl growBox (r0, r0)

/-- Modelled from the spec: spatial index node.  Internal nodes own two child
subtrees, leaves own back-references (indices) into the training set; every
node records the bounding box of all points below it. -/
inductive BTree : Type
  | leaf (lo hi : List ℤ) (idxs : List ℕ)
  | node (lo hi : List ℤ) (l r : BTree)

/-- Bounding box stored at the root of a subtree. -/
def tbox : BTree → List ℤ × List ℤ
  | .leaf lo hi _ => (lo, hi)
  | .node lo hi _ _ => (lo, hi)

/-- Indices referenced by a subtree, in left-to-right (insertion) order. -/
def tflat : BTree → List ℕ
  | .leaf _ _ idxs => idxs
  | .node _ _ l r => tflat l ++ tflat r

/-- Modelled from the spec: recursive build.  Points are split into two child
subsets (first half / second half of the insertion-ordered block) until the
leaf-size threshold (one point) is reached. -/
def buildAux (pairs : List (ℕ × List ℤ)) : BTree :=
  match pairs with
  | [] => .leaf [] [] []
  | p :: rest =>
    let box := boxOf p.2 (rest.map Prod.snd)
    if h : (p :: rest).length ≤ 1 then
      .leaf box.1 box.2 ((p :: rest).map Prod.fst)
    else
      .node box.1 box.2
        (buildAux ((p :: rest).take ((p :: rest).length / 2)))
        (buildAux ((p :: rest).drop ((p :: rest).length / 2)))
  termination_by pairs.length
  decreasing_by
  · simp only [List.length_take]
    simp only [List.length_cons] at h ⊢
    omega
  · simp only [List.length_drop]
    simp only [List.length_cons] at h ⊢
    omega

/-- Modelled from the spec: `build(training_set) -> Index`; building from an
empty training set fails with `EmptyTrainingSet` (modelled by `none`). -/
def build_index (train_data : List (List ℤ)) : Option BTree :=
  if train_data.isEmpty then none else some (buildAux train_data.enum)

/-- Squared distance from the query to the training row referenced by `i`. -/
def distTo (train_data : List (List ℤ)) (q : List ℤ) (i : ℕ) : ℤ :=
  sumSqDiff q (train_data.getD i [])

/-- One step of the best-candidate update: replace the current best only on a
strict improvement (so the first index achieving the minimum is kept). -/
def bestStep (train_data : List (List ℤ)) (q : List ℤ)
    (b : Option (ℤ × ℕ)) (i : ℕ) : Option (ℤ × ℕ) :=
  let d := distTo train_data q i
  match b with
  | none => some (d, i)
  | some (bd, bi) => if d < bd then some (d, i) else some (bd, bi)

/-- Scan the points of a leaf, maintaining the best candidate. -/
def leafScan (train_data : List (List ℤ)) (q : List ℤ)
    (idxs : List ℕ) (b : Option (ℤ × ℕ)) : Option (ℤ × ℕ) :=
  idxs.foldl (bestStep train_data q) b

/-- Modelled from the spec: branch-and-bound traversal.  A subtree is skipped
iff the squared distance from the query to the nearest possible point of its
bounding region exceeds the current best squared distance. -/
def queryAux (train_data : List (List ℤ)) (q : List ℤ) :
    BTree → Option (ℤ × ℕ) → Option (ℤ × ℕ)
  | t, some (bd, bi) =>
    if bd < minDistBox q (tbox t).1 (tbox t).2 then some (bd, bi)
    else
      match t with
      | .leaf _ _ idxs => leafScan train_data q idxs (some (bd, bi))
      | .node _ _ l r =>
        queryAux train_data q r (queryAux train_data q l (some (bd, bi)))
  | t, none =>
    match t with
    | .leaf _ _ idxs => leafScan train_data q idxs none
    | .node _ _ l r => queryAux train_data q r (queryAux train_data q l none)

/-- Modelled from the spec: `query(index, x, k=1)`: best (distance, index)
pair found by the pruned traversal. -/
def query_index (train_data : List (List ℤ)) (q : List ℤ) (t : BTree) :
    Option (ℤ × ℕ) :=
  queryAux train_data q t none

/-- The bounding box `[lo, hi]` covers (elementwise, on every coordinate) the
training row referenced by each index of `idxs`, and all dimensions are `d`.
-/
def Contains (train_data : List (List ℤ)) (d : ℕ)
    (lo hi : List ℤ) (idxs : List ℕ) : Prop :=
  lo.length = d ∧ hi.length = d ∧
  ∀ i ∈ idxs, (train_data.getD i []).length = d ∧
    ∀ c : ℕ, lo.getD c 0 ≤ (train_data.getD i []).getD c 0 ∧
      (train_data.getD i []).getD c 0 ≤ hi.getD c 0

/-- Structural invariant of a built index: every node's bounding box covers
every point referenced below it. -/
def Good (train_data : List (List ℤ)) (d : ℕ) : BTree → Prop
  | .leaf lo hi idxs => Contains train_data d lo hi idxs
  | .node lo hi l r =>
    Contains train_data d lo hi (tflat l ++ tflat r) ∧
    Good train_data d l ∧ Good train_data d r

theorem sum_range_succ_shift (f : ℕ → ℤ) (n : ℕ) :
    ((List.range (n + 1)).map f).sum
      = f 0 + ((List.range n).map (fun c => f (c + 1))).sum := by
  rw [List.range_succ_eq_map]
  simp [List.map_map, Function.comp_def]

theorem sumSqDiff_eq_range (x : List ℤ) : ∀ y : List ℤ, x.length = y.length →
    sumSqDiff x y
      = ((List.range x.length).map (fun c => (x.getD c 0 - y.getD c 0) ^ 2)).sum := by
  induction x with
  | nil => intro y _; simp [sumSqDiff]
  | cons a x' ih =>
    intro y hlen
    cases y with
    | nil => simp at hlen
    | cons b y' =>
      simp only [List.length_cons] at hlen
      have hlen' : x'.length = y'.length := by omega
      simp only [sumSqDiff, List.zipWith_cons_cons, List.map_cons, List.sum_cons,
        List.length_cons]
      rw [sum_range_succ_shift]
      simp only [List.getD_cons_zero, List.getD_cons_succ]
      have h2 := ih y' hlen'
      simp only [sumSqDiff] at h2
      rw [h2]

theorem coordContrib_le (q lo hi r : ℤ) (h1 : lo ≤ r) (h2 : r ≤ hi) :
    coordContrib q lo hi ≤ (q - r) ^ 2 := by
  unfold coordContrib
  by_cases hq1 : q < lo
  · simp only [hq1, if_true]
    nlinarith
  · simp only [hq1, if_false]
    by_cases hq2 : hi < q
    · simp only [hq2, if_true]
      nlinarith
    · simp only [hq2, if_false]
      positivity

/-- Soundness of the bounding-box lower bound: the squared distance from the
query to any point inside the box is at least `minDistBox`. -/
theorem minDistBox_le (q lo hi row : List ℤ) (hrow : row.length = q.length)
    (hcont : ∀ c : ℕ, lo.getD c 0 ≤ row.getD c 0 ∧ row.getD c 0 ≤ hi.getD c 0) :
    minDistBox q lo hi ≤ sumSqDiff q row := by
  rw [sumSqDiff_eq_range q row hrow.symm]
  unfold minDistBox
  refine List.sum_le_sum ?_
  intro c _
  exact coordContrib_le _ _ _ _ (hcont c).1 (hcont c).2

theorem getD_zipWith_min_le (a : List ℤ) : ∀ (b : List ℤ) (c : ℕ),
    a.length = b.length →
    (List.zipWith min a b).getD c 0 ≤ a.getD c 0 ∧
    (List.zipWith min a b).getD c 0 ≤ b.getD c 0 := by
  induction a with
  | nil =>
    intro b c h
    cases b with
    | nil => simp
    | cons x xs => simp at h
  | cons x xs ih =>
    intro b c h
    cases b with
    | nil => simp at h
    | cons y ys =>
      simp only [List.length_cons] at h
      rcases c with _ | c
      · simp
      · simpa using ih ys c (by omega)

theorem getD_zipWith_max_le (a : List ℤ) : ∀ (b : List ℤ) (c : ℕ),
    a.length = b.length →
    a.getD c 0 ≤ (List.zipWith max a b).getD c 0 ∧
    b.getD c 0 ≤ (List.zipWith max a b).getD c 0 := by
  induction a with
  | nil =>
    intro b c h
    cases b with
    | nil => simp
    | cons x xs => simp at h
  | cons x xs ih =>
    intro b c h
    cases b with
    | nil => simp at h
    | cons y ys =>
      simp only [List.length_cons] at h
      rcases c with _ | c
      · simp
      · simpa using ih ys c (by omega)

/-- Folding `growBox` keeps the box dimensions, only grows the box, and makes
it cover every processed row. -/
theorem foldl_growBox_spec (d : ℕ) :
    ∀ (rest : List (List ℤ)) (acc : List ℤ × List ℤ),
      acc.1.length = d → acc.2.length = d → (∀ row ∈ rest, row.length = d) →
      (rest.foldl growBox acc).1.length = d ∧
      (rest.foldl growBox acc).2.length = d ∧
      (∀ c : ℕ, (rest.foldl growBox acc).1.getD c 0 ≤ acc.1.getD c 0 ∧
        acc.2.getD c 0 ≤ (rest.foldl growBox acc).2.getD c 0) ∧
      (∀ row ∈ rest, ∀ c : ℕ,
        (rest.foldl growBox acc).1.getD c 0 ≤ row.getD c 0 ∧
        row.getD c 0 ≤ (rest.foldl growBox acc).2.getD c 0) := by
  intro rest
  induction rest with
  | nil =>
    intro acc h1 h2 _
    refine ⟨h1, h2, fun c => ⟨le_refl _, le_refl _⟩, by simp⟩
  | cons row rest ih =>
    intro acc h1 h2 hrows
    have hrow : row.length = d := hrows row (by simp)
    have h1' : (growBox acc row).1.length = d := by
      simp [growBox, List.length_zipWith, h1, hrow]
    have h2' : (growBox acc row).2.length = d := by
      simp [growBox, List.length_zipWith, h2, hrow]
    have hrest : ∀ r ∈ rest, r.length = d := fun r hr => hrows r (by simp [hr])
    obtain ⟨g1, g2, gmono, gcov⟩ := ih (growBox acc row) h1' h2' hrest
    simp only [List.foldl_cons]
    refine ⟨g1, g2, ?_, ?_⟩
    · intro c
      have hmin := getD_zipWith_min_le acc.1 row c (by omega)
      have hmax := getD_zipWith_max_le acc.2 row c (by omega)
      exact ⟨le_trans (gmono c).1 hmin.1, le_trans hmax.1 (gmono c).2⟩
    · intro r hr c
      rcases List.mem_cons.mp hr with hr | hr
      · subst hr
        have hmin := getD_zipWith_min_le acc.1 r c (by omega)
        have hmax := getD_zipWith_max_le acc.2 r c (by omega)
        exact ⟨le_trans (gmono c).1 hmin.2, le_trans hmax.2 (gmono c).2⟩
      · exact gcov r hr c

/-- The bounding box of a nonempty batch of rows covers all of them. -/
theorem boxOf_spec (d : ℕ) (r0 : List ℤ) (rest : List (List ℤ))
    (h0 : r0.length = d) (hrest : ∀ row ∈ rest, row.length = d) :
    (boxOf r0 rest).1.length = d ∧ (boxOf r0 rest).2.length = d ∧
    ∀ row ∈ r0 :: rest, ∀ c : ℕ,
      (boxOf r0 rest).1.getD c 0 ≤ row.getD c 0 ∧
      row.getD c 0 ≤ (boxOf r0 rest).2.getD c 0 := by
  obtain ⟨g1, g2, gmono, gcov⟩ :=
    foldl_growBox_spec d rest (r0, r0) h0 h0 hrest
  refine ⟨g1, g2, ?_⟩
  intro row hrow c
  rcases List.mem_cons.mp hrow with hrow | hrow
  · subst hrow
    exact ⟨(gmono c).1, (gmono c).2⟩
  · exact gcov row hrow c

/-- The leaves of a built index enumerate exactly the inserted indices, in
insertion order. -/
theorem tflat_buildAux : ∀ pairs : List (ℕ × List ℤ),
    tflat (buildAux pairs) = pairs.map Prod.fst := by
  intro pairs
  induction pairs using buildAux.induct with
  | case1 => simp [buildAux, tflat]
  | case2 p rest h =>
    have hrest0 : rest = [] := by
      simp only [List.length_cons] at h
      exact List.eq_nil_of_length_eq_zero (by omega)
    subst hrest0
    simp [buildAux, tflat]
  | case3 p rest h ih1 ih2 =>
    simp only [buildAux]
    rw [dif_neg h]
    simp only [tflat]
    rw [ih1, ih2, ← List.map_append, List.take_append_drop]

/-- The bounding box computed over a batch of consistent back-references
covers every referenced training row. -/
theorem contains_of_pairs (train_data : List (List ℤ)) (d : ℕ)
    (p : ℕ × List ℤ) (rest : List (ℕ × List ℤ))
    (hcons : ∀ pr ∈ p :: rest, train_data.getD pr.1 [] = pr.2 ∧ pr.2.length = d) :
    Contains train_data d (boxOf p.2 (rest.map Prod.snd)).1
      (boxOf p.2 (rest.map Prod.snd)).2 ((p :: rest).map Prod.fst) := by
  have h0 : p.2.length = d := (hcons p (by simp)).2
  have hrest : ∀ row ∈ rest.map Prod.snd, row.length = d := by
    intro row hrow
    obtain ⟨pr, hpr, hpr2⟩ := List.mem_map.mp hrow
    exact hpr2 ▸ (hcons pr (by simp [hpr])).2
  obtain ⟨g1, g2, gcov⟩ := boxOf_spec d p.2 (rest.map Prod.snd) h0 hrest
  refine ⟨g1, g2, ?_⟩
  intro i hi
  obtain ⟨pr, hpr, hpr1⟩ := List.mem_map.mp hi
  have hrow := (hcons pr hpr).1
  have hlen := (hcons pr hpr).2
  have hmem : pr.2 ∈ p.2 :: rest.map Prod.snd := by
    rcases List.mem_cons.mp hpr with hpr' | hpr'
    · simp [hpr']
    · exact List.mem_cons_of_mem _ (List.mem_map.mpr ⟨pr, hpr', rfl⟩)
  subst hpr1
  rw [hrow]
  exact ⟨hlen, fun c => gcov pr.2 hmem c⟩

/-- A built index satisfies the bounding-box invariant whenever the pairs fed
to the build are consistent back-references into the training set. -/
theorem good_buildAux (train_data : List (List ℤ)) (d : ℕ) :
    ∀ pairs : List (ℕ × List ℤ),
      (∀ pr ∈ pairs, train_data.getD pr.1 [] = pr.2 ∧ pr.2.length = d) →
      pairs ≠ [] →
      Good train_data d (buildAux pairs) := by
  intro pairs
  induction pairs using buildAux.induct with
  | case1 =>
    intro _ hne
    exact absurd rfl hne
  | case2 p rest h =>
    intro hcons _
    have hrest0 : rest = [] := by
      simp only [List.length_cons] at h
      exact List.eq_nil_of_length_eq_zero (by omega)
    subst hrest0
    simpa [buildAux, Good] using contains_of_pairs train_data d p [] hcons
  | case3 p rest h ih1 ih2 =>
    intro hcons _
    have hb : buildAux (p :: rest)
        = .node (boxOf p.2 (rest.map Prod.snd)).1 (boxOf p.2 (rest.map Prod.snd)).2
            (buildAux ((p :: rest).take ((p :: rest).length / 2)))
            (buildAux ((p :: rest).drop ((p :: rest).length / 2))) := by
      simp only [buildAux]
      rw [dif_neg h]
    rw [hb]
    have hlen2 : 2 ≤ (p :: rest).length := by
      simp only [List.length_cons] at h ⊢
      omega
    have htake_ne : (p :: rest).take ((p :: rest).length / 2) ≠ [] := by
      have : ((p :: rest).take ((p :: rest).length / 2)).length ≠ 0 := by
        rw [List.length_take]
        omega
      intro hcontra
      rw [hcontra] at this
      simp at this
    have hdrop_ne : (p :: rest).drop ((p :: rest).length / 2) ≠ [] := by
      have : ((p :: rest).drop ((p :: rest).length / 2)).length ≠ 0 := by
        rw [List.length_drop]
        omega
      intro hcontra
      rw [hcontra] at this
      simp at this
    refine ⟨?_, ?_, ?_⟩
    · rw [tflat_buildAux, tflat_buildAux, ← List.map_append, List.take_append_drop]
      exact contains_of_pairs train_data d p rest hcons
    · exact ih1 (fun pr hpr => hcons pr (List.take_subset _ _ hpr)) htake_ne
    · exact ih2 (fun pr hpr => hcons pr (List.drop_subset _ _ hpr)) hdrop_ne

theorem leafScan_cons (td : List (List ℤ)) (q : List ℤ) (i : ℕ) (tl : List ℕ)
    (b : Option (ℤ × ℕ)) :
    leafScan td q (i :: tl) b = leafScan td q tl (bestStep td q b i) := by
  simp [leafScan]

theorem leafScan_append (td : List (List ℤ)) (q : List ℤ) (l1 l2 : List ℕ)
    (b : Option (ℤ × ℕ)) :
    leafScan td q (l1 ++ l2) b = leafScan td q l2 (leafScan td q l1 b) := by
  simp [leafScan, List.foldl_append]

theorem argminIdx_cons_none {α : Type} [LinearOrder α] (a : α) (l : List α)
    (h : argminIdx l = none) : argminIdx (a :: l) = some (a, 0) := by
  simp [argminIdx, h]

theorem argminIdx_cons_some {α : Type} [LinearOrder α] (a m : α) (j : ℕ)
    (l : List α) (h : argminIdx l = some (m, j)) :
    argminIdx (a :: l) = if m < a then some (m, j + 1) else some (a, 0) := by
  simp [argminIdx, h]

/-- Scanning points that are all at least as far as the current best distance
leaves the best candidate unchanged. -/
theorem leafScan_noChange (td : List (List ℤ)) (q : List ℤ) :
    ∀ (idxs : List ℕ) (bd : ℤ) (bi : ℕ),
      (∀ i ∈ idxs, ¬ distTo td q i < bd) →
      leafScan td q idxs (some (bd, bi)) = some (bd, bi) := by
  intro idxs
  induction idxs with
  | nil => intro bd bi _; rfl
  | cons i tl ih =>
    intro bd bi hfar
    rw [leafScan_cons]
    have hi : ¬ distTo td q i < bd := hfar i (by simp)
    have hstep : bestStep td q (some (bd, bi)) i = some (bd, bi) := by
      simp only [bestStep]
      rw [if_neg hi]
    rw [hstep]
    exact ih bd bi (fun t ht => hfar t (by simp [ht]))

/-- Scanning from an explicit best candidate computes the first strict
improvement over the whole scanned block. -/
theorem leafScan_from_some (td : List (List ℤ)) (q : List ℤ) :
    ∀ (idxs : List ℕ) (bd : ℤ) (bi : ℕ),
      leafScan td q idxs (some (bd, bi)) = some (
        match argminIdx (idxs.map (distTo td q)) with
        | none => (bd, bi)
        | some (m, j) => if m < bd then (m, idxs.getD j 0) else (bd, bi)) := by
  intro idxs
  induction idxs with
  | nil => intro bd bi; rfl
  | cons i tl ih =>
    intro bd bi
    rw [leafScan_cons, List.map_cons]
    by_cases h1 : distTo td q i < bd
    · have hstep : bestStep td q (some (bd, bi)) i
          = some (distTo td q i, i) := by
        simp only [bestStep]
        rw [if_pos h1]
      rw [hstep, ih]
      cases hmtl : argminIdx (tl.map (distTo td q)) with
      | none =>
        rw [argminIdx_cons_none _ _ hmtl]
        simp [h1]
      | some p =>
        rcases p with ⟨m, j⟩
        rw [argminIdx_cons_some _ _ _ _ hmtl]
        by_cases h2 : m < distTo td q i
        · have hmbd : m < bd := lt_trans h2 h1
          rw [if_pos h2]
          simp [h2, hmbd]
        · rw [if_neg h2]
          simp [h2, h1]
    · have hstep : bestStep td q (some (bd, bi)) i = some (bd, bi) := by
        simp only [bestStep]
        rw [if_neg h1]
      rw [hstep, ih]
      cases hmtl : argminIdx (tl.map (distTo td q)) with
      | none =>
        rw [argminIdx_cons_none _ _ hmtl]
        simp [h1]
      | some p =>
        rcases p with ⟨m, j⟩
        rw [argminIdx_cons_some _ _ _ _ hmtl]
        by_cases h2 : m < distTo td q i
        · rw [if_pos h2]
          by_cases h3 : m < bd
          · simp [h3]
          · simp [h3]
        · have hle : bd ≤ distTo td q i := le_of_not_lt h1
          have hle2 : distTo td q i ≤ m := le_of_not_lt h2
          have h3 : ¬ m < bd := not_lt.mpr (le_trans hle hle2)
          rw [if_neg h2]
          simp [h3, h1]

/-- Scanning a block from an empty candidate set computes the first index of
the minimum distance within the block. -/
theorem leafScan_from_none (td : List (List ℤ)) (q : List ℤ) (idxs : List ℕ) :
    leafScan td q idxs none
      = (argminIdx (idxs.map (distTo td q))).map
          (fun p => (p.1, idxs.getD p.2 0)) := by
  cases idxs with
  | nil => rfl
  | cons i tl =>
    rw [leafScan_cons]
    have hstep : bestStep td q none i = some (distTo td q i, i) := rfl
    rw [hstep, leafScan_from_some, List.map_cons]
    cases hmtl : argminIdx (tl.map (distTo td q)) with
    | none =>
      rw [argminIdx_cons_none _ _ hmtl]
      simp
    | some p =>
      rcases p with ⟨m, j⟩
      rw [argminIdx_cons_some _ _ _ _ hmtl]
      by_cases h2 : m < distTo td q i
      · rw [if_pos h2]
        simp [h2]
      · rw [if_neg h2]
        simp [h2]

/-- Branch-and-bound pruning is sound: the pruned traversal computes exactly
the linear scan of the leaves (in insertion order). -/
theorem queryAux_eq_scan (td : List (List ℤ)) (q : List ℤ) (d : ℕ)
    (hq : q.length = d) :
    ∀ t : BTree, Good td d t → ∀ b, queryAux td q t b = leafScan td q (tflat t) b := by
  intro t
  induction t with
  | leaf lo hi idxs =>
    intro hg b
    obtain ⟨hlo, hhi, hcov⟩ := hg
    cases b with
    | none => simp [queryAux, tflat]
    | some p =>
      rcases p with ⟨bd, bi⟩
      simp only [queryAux, tbox, tflat]
      by_cases hp : bd < minDistBox q lo hi
      · rw [if_pos hp]
        refine (leafScan_noChange td q idxs bd bi ?_).symm
        intro i hi2
        obtain ⟨hilen, hic⟩ := hcov i hi2
        have hmd : minDistBox q lo hi ≤ distTo td q i :=
          minDistBox_le q lo hi (td.getD i []) (by omega) hic
        omega
      · rw [if_neg hp]
  | node lo hi l r ihl ihr =>
    intro hg b
    obtain ⟨hc, hgl, hgr⟩ := hg
    cases b with
    | none =>
      simp only [queryAux, tflat]
      rw [ihl hgl none, ihr hgr _, leafScan_append]
    | some p =>
      rcases p with ⟨bd, bi⟩
      simp only [queryAux, tbox, tflat]
      by_cases hp : bd < minDistBox q lo hi
      · rw [if_pos hp]
        obtain ⟨hlo, hhi, hcov⟩ := hc
        refine (leafScan_noChange td q (tflat l ++ tflat r) bd bi ?_).symm
        intro i hi2
        obtain ⟨hilen, hic⟩ := hcov i hi2
        have hmd : minDistBox q lo hi ≤ distTo td q i :=
          minDistBox_le q lo hi (td.getD i []) (by omega) hic
        omega
      · rw [if_neg hp]
        rw [ihl hgl _, ihr hgr _, leafScan_append]

theorem allSome_map_some {α β : Type} (f : β → α) (g : β → Option α) :
    ∀ l : List β, (∀ i ∈ l, g i = some (f i)) →
      allSome (l.map g) = some (l.map f) := by
  intro l
  induction l with
  | nil => intro _; rfl
  | cons b tl ih =>
    intro h
    rw [List.map_cons, List.map_cons, h b (by simp)]
    simp only [allSome]
    rw [ih (fun i hi => h i (by simp [hi]))]
    rfl

theorem getD_range_of_lt (n j : ℕ) (h : j < n) : (List.range n).getD j 0 = j := by
  rw [List.getD_eq_getElem?_getD, List.getElem?_range h]
  rfl

/-- Under a rectangular training set, `find_NN` reduces to the first argmin of
the total distance list. -/
theorem find_NN_eq_argmin (td : List (List ℤ)) (tl : List ℕ) (x : List ℤ)
    (d : ℕ) (hlen : tl.length = td.length) (hx : x.length = d)
    (hrows : ∀ r ∈ td, r.length = d) :
    find_NN td tl x
      = (argminIdx ((List.range tl.length).map (distTo td x))).map (fun p => p.2) := by
  have hrow : ∀ i ∈ List.range tl.length,
      squared_dist x (td.getD i []) = some (distTo td x i) := by
    intro i hi
    have hi' : i < td.length := by
      rw [← hlen]
      exact List.mem_range.mp hi
    have hmem : td.getD i [] ∈ td := by
      rw [List.getD_eq_getElem?_getD, List.getElem?_eq_getElem hi']
      exact List.getElem_mem hi'
    have hdim : (td.getD i []).length = d := hrows _ hmem
    simp only [squared_dist, distTo]
    rw [if_pos (by omega)]
  have hall : allSome (nn_dists td tl x)
      = some ((List.range tl.length).map (distTo td x)) := by
    unfold nn_dists
    exact allSome_map_some (distTo td x)
      (fun i => squared_dist x (td.getD i [])) (List.range tl.length) hrow
  unfold find_NN
  rw [hall]
  rfl

/-- Claim C1: for every consistently labelled, rectangular, nonempty training
set and every query vector, the label produced by the (spec-modelled) spatial
index nearest-neighbour search with k = 1 equals the label produced by the
brute-force linear-scan nearest-neighbour search `NN_classifier` on the same
training set. -/
theorem C1_index_label_eq_brute_force
    (td : List (List ℤ)) (tl : List ℕ) (q : List ℤ) (d : ℕ)
    (hne : td ≠ []) (hlen : tl.length = td.length)
    (hq : q.length = d) (hrows : ∀ r ∈ td, r.length = d) :
    ∃ t, build_index td = some t ∧
      (query_index td q t).map (fun p => tl.getD p.2 0)
        = NN_classifier td tl q := by
  refine ⟨buildAux td.enum, ?_, ?_⟩
  · unfold build_index
    rw [if_neg (by simp [List.isEmpty_iff, hne])]
  · have hcons : ∀ pr ∈ td.enum, td.getD pr.1 [] = pr.2 ∧ pr.2.length = d := by
      intro pr hpr
      have hget : td[pr.1]? = some pr.2 := List.mem_enum_iff_getElem?.mp hpr
      obtain ⟨hlt, heq⟩ := List.getElem?_eq_some.mp hget
      have hmem : pr.2 ∈ td := heq ▸ List.getElem_mem hlt
      constructor
      · rw [List.getD_eq_getElem?_getD, hget]
        rfl
      · exact hrows _ hmem
    have henum_ne : td.enum ≠ [] := by
      intro hcontra
      have : td.enum.length = 0 := by rw [hcontra]; rfl
      rw [List.enum_length] at this
      exact hne (List.eq_nil_of_length_eq_zero this)
    have hgood : Good td d (buildAux td.enum) :=
      good_buildAux td d td.enum hcons henum_ne
    have hscan := queryAux_eq_scan td q d hq (buildAux td.enum) hgood none
    unfold query_index
    rw [hscan, tflat_buildAux, List.enum_map_fst, leafScan_from_none,
      NN_classifier, find_NN_eq_argmin td tl q d hlen hq hrows, hlen]
    cases hdl : argminIdx ((List.range td.length).map (distTo td q)) with
    | none => simp
    | some p =>
      rcases p with ⟨m, j⟩
      have hdl_ne : (List.range td.length).map (distTo td q) ≠ [] := by
        intro hcontra
        rw [hcontra] at hdl
        simp [argminIdx] at hdl
      obtain ⟨m', j', hm', hj', _⟩ :=
        argminIdx_spec 0 ((List.range td.length).map (distTo td q)) hdl_ne
      rw [hdl] at hm'
      injection hm' with hm'
      injection hm' with hm1 hm2
      subst hm1
      subst hm2
      have hjlt : j < td.length := by
        simpa using hj'
      simp [Option.map_map, List.getElem?_range hjlt]

/-- Claim C1 witness: the equivalence instantiated on a concrete training set
and query. -/
theorem C1_witness :
    (([[0, 0], [5, 5], [9, 9]] : List (List ℤ)) ≠ [] ∧
      ([3, 4, 5] : List ℕ).length = ([[0, 0], [5, 5], [9, 9]] : List (List ℤ)).length ∧
      ([4, 4] : List ℤ).length = 2 ∧
      (∀ r ∈ ([[0, 0], [5, 5], [9, 9]] : List (List ℤ)), r.length = 2)) ∧
    ∃ t, build_index [[0, 0], [5, 5], [9, 9]] = some t ∧
      (query_index [[0, 0], [5, 5], [9, 9]] [4, 4] t).map
          (fun p => ([3, 4, 5] : List ℕ).getD p.2 0)
        = NN_classifier [[0, 0], [5, 5], [9, 9]] [3, 4, 5] [4, 4] :=
  ⟨⟨by decide, by decide, by decide, by decide⟩,
    C1_index_label_eq_brute_force [[0, 0], [5, 5], [9, 9]] [3, 4, 5] [4, 4] 2
      (by decide) (by decide) (by decide) (by decide)⟩

theorem getD_map_range {α : Type} (d0 : α) (f : ℕ → α) (n t : ℕ) (h : t < n) :
    ((List.range n).map f).getD t d0 = f t := by
  rw [List.getD_eq_getElem?_getD, List.getElem?_map, List.getElem?_range h]
  rfl

/-- Claim C6: for every non-empty training set and every (dimension-matching)
query vector, `find_NN` returns the first index achieving the minimum squared
distance, scanning the training examples in insertion order: the result is the
unique index whose distance is minimal and strictly beaten by no earlier
index. -/
theorem C6_find_NN_first_min (td : List (List ℤ)) (tl : List ℕ) (x : List ℤ)
    (d : ℕ) (htl : tl ≠ []) (hlen : tl.length = td.length) (hx : x.length = d)
    (hrows : ∀ r ∈ td, r.length = d) :
    ∃ i, find_NN td tl x = some i ∧ i < tl.length ∧
      (∀ t, t < tl.length → distTo td x i ≤ distTo td x t) ∧
      (∀ t, t < i → distTo td x i < distTo td x t) := by
  rw [find_NN_eq_argmin td tl x d hlen hx hrows]
  have hdl_ne : (List.range tl.length).map (distTo td x) ≠ [] := by
    intro hcontra
    have := congrArg List.length hcontra
    simp at this
    exact htl this
  obtain ⟨m, j, hm, hj, hget, hle, hlt⟩ :=
    argminIdx_spec 0 ((List.range tl.length).map (distTo td x)) hdl_ne
  have hjlt : j < tl.length := by simpa using hj
  have hgetj : ((List.range tl.length).map (distTo td x)).getD j 0 = distTo td x j :=
    getD_map_range 0 (distTo td x) tl.length j hjlt
  refine ⟨j, ?_, hjlt, ?_, ?_⟩
  · rw [hm]; rfl
  · intro t ht
    have := hle t (by simpa using ht)
    rw [getD_map_range 0 (distTo td x) tl.length t ht] at this
    rw [← hget, hgetj] at this
    exact this
  · intro t ht
    have htlt : t < tl.length := lt_trans ht hjlt
    have := hlt t ht
    rw [getD_map_range 0 (distTo td x) tl.length t htlt] at this
    rw [← hget, hgetj] at this
    exact this

/-- Claim C6 witness: on a training set with a distance tie (rows 1 and 2 are
both at distance 0 from the query), the theorem applies. -/
theorem C6_witness :
    (([7, 8, 9, 1] : List ℕ) ≠ [] ∧
      ([7, 8, 9, 1] : List ℕ).length = ([[0], [1], [1], [2]] : List (List ℤ)).length ∧
      ([1] : List ℤ).length = 1 ∧
      (∀ r ∈ ([[0], [1], [1], [2]] : List (List ℤ)), r.length = 1)) ∧
    ∃ i, find_NN [[0], [1], [1], [2]] [7, 8, 9, 1] [1] = some i ∧
      i < ([7, 8, 9, 1] : List ℕ).length ∧
      (∀ t, t < ([7, 8, 9, 1] : List ℕ).length →
        distTo [[0], [1], [1], [2]] [1] i ≤ distTo [[0], [1], [1], [2]] [1] t) ∧
      (∀ t, t < i → distTo [[0], [1], [1], [2]] [1] i < distTo [[0], [1], [1], [2]] [1] t) :=
  ⟨⟨by decide, by decide, by decide, by decide⟩,
    C6_find_NN_first_min [[0], [1], [1], [2]] [7, 8, 9, 1] [1] 1
      (by decide) (by decide) (by decide) (by decide)⟩

/-- Claim C7: for every query, the brute-force search over an empty training
set fails (the `np.argmin` of the empty distance list has no value), and
building a spatial index from an empty training set fails in the same way;
both failures are the `EmptyTrainingSet` condition of the spec, modelled by
`none`. -/
theorem C7_empty_training_set_fails (q : List ℤ) :
    find_NN [] [] q = none ∧ build_index ([] : List (List ℤ)) = none :=
  ⟨rfl, rfl⟩

/-- Claim C9 counterexample: two vectors of different lengths for which the
distance engine returns a numeric result (numpy broadcasting of a length-1
operand) instead of failing. -/
theorem C9_counterexample :
    ([0, 0] : List ℤ).length ≠ ([1] : List ℤ).length ∧
    squared_dist [0, 0] [1] = some 2 := by
  constructor
  · decide
  · decide

/-- Claim C9 (amended): the distance engine returns the sum of squared
element-wise differences on equal-length vectors, fails when the lengths
differ and neither operand has length 1, broadcasts a length-1 operand
(returning a numeric result), and every returned value is non-negative. -/
theorem C9_squared_dist_contract (x y : List ℤ) :
    (x.length = y.length →
      squared_dist x y
        = some (((List.range x.length).map
            (fun c => (x.getD c 0 - y.getD c 0) ^ 2)).sum)) ∧
    (x.length ≠ y.length → x.length ≠ 1 → y.length ≠ 1 →
      squared_dist x y = none) ∧
    (∀ v, squared_dist x y = some v → 0 ≤ v) := by
  refine ⟨?_, ?_, ?_⟩
  · intro h
    unfold squared_dist
    rw [if_pos h, sumSqDiff_eq_range x y h]
  · intro h h1 h2
    unfold squared_dist
    rw [if_neg h, if_neg h1, if_neg h2]
  · intro v hv
    unfold squared_dist at hv
    by_cases h : x.length = y.length
    · rw [if_pos h] at hv
      injection hv with hv
      subst hv
      unfold sumSqDiff
      refine List.sum_nonneg ?_
      intro z hz
      obtain ⟨w, _, hw⟩ := List.mem_map.mp hz
      subst hw
      positivity
    · rw [if_neg h] at hv
      by_cases h1 : x.length = 1
      · rw [if_pos h1] at hv
        injection hv with hv
        subst hv
        refine List.sum_nonneg ?_
        intro z hz
        obtain ⟨w, _, hw⟩ := List.mem_map.mp hz
        subst hw
        positivity
      · rw [if_neg h1] at hv
        by_cases h2 : y.length = 1
        · rw [if_pos h2] at hv
          injection hv with hv
          subst hv
          refine List.sum_nonneg ?_
          intro z hz
          obtain ⟨w, _, hw⟩ := List.mem_map.mp hz
          subst hw
          positivity
        · rw [if_neg h2] at hv
          exact absurd hv (by simp)

/-- Claim C9 witness: the amended contract instantiated on concrete
equal-length and mismatched-length inputs. -/
theorem C9_witness :
    squared_dist [0, 1] [2, 3]
      = some (((List.range ([0, 1] : List ℤ).length).map
          (fun c => (([0, 1] : List ℤ).getD c 0 - ([2, 3] : List ℤ).getD c 0) ^ 2)).sum) ∧
    squared_dist [0, 1, 2] [1, 5] = none :=
  ⟨(C9_squared_dist_contract [0, 1] [2, 3]).1 (by decide),
    (C9_squared_dist_contract [0, 1, 2] [1, 5]).2.1 (by decide) (by decide) (by decide)⟩

/-- Claim C10: the brute-force search considers exactly the training rows with
indices `0 .. len(train_labels) - 1`: the candidate list has the length of the
label vector, and appending extra training rows beyond the label count never
changes the result. -/
theorem C10_candidates_follow_label_count (td extra : List (List ℤ))
    (tl : List ℕ) (x : List ℤ) (h : tl.length ≤ td.length) :
    (nn_dists td tl x).length = tl.length ∧
    find_NN (td ++ extra) tl x = find_NN td tl x := by
  have hdists : nn_dists (td ++ extra) tl x = nn_dists td tl x := by
    unfold nn_dists
    refine List.map_congr_left ?_
    intro i hi
    have hilt : i < td.length := lt_of_lt_of_le (List.mem_range.mp hi) h
    rw [List.getD_append td extra [] i hilt]
  refine ⟨by simp [nn_dists], ?_⟩
  unfold find_NN
  rw [hdists]

/-- Claim C10 witness: appending an extra row beyond the label count does not
change the nearest-neighbour result. -/
theorem C10_witness :
    ([0, 1] : List ℕ).length ≤ ([[0], [3]] : List (List ℤ)).length ∧
    (nn_dists [[0], [3]] [0, 1] [2]).length = ([0, 1] : List ℕ).length ∧
    find_NN ([[0], [3]] ++ [[2]]) [0, 1] [2] = find_NN [[0], [3]] [0, 1] [2] :=
  ⟨by decide,
    C10_candidates_follow_label_count [[0], [3]] [[2]] [0, 1] [2] (by decide)⟩

/-! ### Gaussian generative model (second notebook)

`fit_generative_model(x, y)` is embedded over exact rationals; a training set
is an `n × d` matrix `x` together with a label vector `y` (numpy arrays are
rectangular by construction, so rows are functions `Fin d → ℚ`).  The number
of classes is the source's literal `k = 10` and the regularization constant is
the source's literal `3100`.  `np.mean` / `np.cov` of an empty selection
produce NaN values (with a runtime warning, not an exception); NaN rows and
matrices are modelled by `none`.  `float(sum(indices))/float(len(y))` raises
`ZeroDivisionError` when the training set is empty, so the fit of an empty
training set is modelled by `none`. -/

/-- `indices = (y == label)`: the training indices labelled `j`. -/
def classIdx (n : ℕ) (y : Fin n → ℕ) (j : ℕ) : Finset (Fin n) :=
  Finset.univ.filter (fun i => y i = j)

/-- `sum(indices)`: how many examples carry label `j`. -/
def classCount (n : ℕ) (y : Fin n → ℕ) (j : ℕ) : ℕ :=
  (classIdx n y j).card

/-- Columnwise mean of the selected rows (total version, meaningful only when
the class is non-empty). -/
def classMeanFun (n d : ℕ) (x : Fin n → Fin d → ℚ) (y : Fin n → ℕ) (j : ℕ) :
    Fin d → ℚ :=
  fun c => (∑ i ∈ classIdx n y j, x i c) / (classCount n y j : ℚ)

/-- `mu[label] = np.mean(x[indices,:], axis=0)`: a NaN row (modelled `none`)
when the class has no examples. -/
def classMean (n d : ℕ) (x : Fin n → Fin d → ℚ) (y : Fin n → ℕ) (j : ℕ) :
    Option (Fin d → ℚ) :=
  if classCount n y j = 0 then none else some (classMeanFun n d x y j)

/-- `sigma[label] = np.cov(x[indices,:], rowvar=0, bias=1)`: the biased
(divide-by-count) empirical covariance of the selected rows; a NaN matrix
(modelled `none`) when the class has no examples. -/
def classCov (n d : ℕ) (x : Fin n → Fin d → ℚ) (y : Fin n → ℕ) (j : ℕ) :
    Option (Fin d → Fin d → ℚ) :=
  if classCount n y j = 0 then none
  else some (fun a b =>
    (∑ i ∈ classIdx n y j,
      (x i a - classMeanFun n d x y j a) * (x i b - classMeanFun n d x y j b))
      / (classCount n y j : ℚ))

/-- `pi[label] = float(sum(indices)) / float(len(y))`. -/
def classPrior (n : ℕ) (y : Fin n → ℕ) (j : ℕ) : ℚ :=
  (classCount n y j : ℚ) / (n : ℚ)

/-- `fit_generative_model(x, y)`: `k = 10` and the regularization constant
`3100` are fixed literals in the source, and the identity added by
`sigma += 3100*I` is `I = np.identity(784)` — a 784×784 matrix regardless of
the data's feature count.  An empty training set raises `ZeroDivisionError`
in the first prior (inside the loop, before the regularization line).  For
`d ≠ 784` the in-place `sigma += 3100*I` raises a broadcast `ValueError`
(the `(10, d, d)` output cannot absorb a `(784, 784)` operand), so the fit
returns nothing; only for `d = 784` does it return the NaN-propagating means,
the regularized covariances and the priors. -/
def fit_generative_model (n d : ℕ) (x : Fin n → Fin d → ℚ) (y : Fin n → ℕ) :
    Option ((Fin 10 → Option (Fin d → ℚ)) ×
      (Fin 10 → Option (Fin d → Fin d → ℚ)) × (Fin 10 → ℚ)) :=
  if n = 0 then none
  else if d = 784 then
    some
      (fun j => classMean n d x y (j : ℕ),
       fun j => (classCov n d x y (j : ℕ)).map
         (fun S a b => S a b + if a = b then 3100 else 0),
       fun j => classPrior n y (j : ℕ))
  else none

/-- The feature vectors labelled `j`, in insertion order (the spec's view of a
class). -/
def spec_classVectors (n d : ℕ) (x : Fin n → Fin d → ℚ) (y : Fin n → ℕ)
    (j : ℕ) : List (Fin d → ℚ) :=
  ((List.finRange n).filter (fun i => y i = j)).map x

/-- Spec: `prior[j]` = count of examples labelled `j` divided by `N`. -/
def spec_prior (n d : ℕ) (x : Fin n → Fin d → ℚ) (y : Fin n → ℕ) (j : ℕ) : ℚ :=
  ((spec_classVectors n d x y j).length : ℚ) / (n : ℚ)

/-- Spec: `mean[j]` = element-wise average of the vectors labelled `j`. -/
def spec_mean (n d : ℕ) (x : Fin n → Fin d → ℚ) (y : Fin n → ℕ) (j : ℕ) :
    Fin d → ℚ :=
  fun c => ((spec_classVectors n d x y j).map (fun v => v c)).sum
    / ((spec_classVectors n d x y j).length : ℚ)

/-- Spec: `raw_covariance[j]` = the biased (divide-by-count, not count-1)
empirical covariance of the vectors labelled `j`. -/
def spec_rawCov (n d : ℕ) (x : Fin n → Fin d → ℚ) (y : Fin n → ℕ) (j : ℕ) :
    Fin d → Fin d → ℚ :=
  fun a b => ((spec_classVectors n d x y j).map
      (fun v => (v a - spec_mean n d x y j a) * (v b - spec_mean n d x y j b))).sum
    / ((spec_classVectors n d x y j).length : ℚ)

theorem sum_map_filter_eq {ι M : Type} [AddCommMonoid M] (p : ι → Prop)
    [DecidablePred p] (f : ι → M) :
    ∀ l : List ι, ((l.filter (fun i => decide (p i))).map f).sum
      = (l.map (fun i => if p i then f i else 0)).sum := by
  intro l
  induction l with
  | nil => rfl
  | cons a tl ih =>
    by_cases h : p a
    · simp [List.filter_cons, h, ih]
    · simp [List.filter_cons, h, ih]

theorem sum_map_finRange {M : Type} [AddCommMonoid M] (n : ℕ) (g : Fin n → M) :
    ((List.finRange n).map g).sum = ∑ i, g i := by
  rw [← List.ofFn_eq_map, List.sum_ofFn]

theorem sum_map_one {ι : Type} : ∀ l : List ι, (l.map (fun _ => (1 : ℕ))).sum = l.length := by
  intro l
  induction l with
  | nil => rfl
  | cons a tl ih => simp [ih, Nat.add_comm]

/-- The boolean-mask count of the fit loop agrees with the spec's list of
class vectors. -/
theorem classCount_eq_length (n d : ℕ) (x : Fin n → Fin d → ℚ) (y : Fin n → ℕ)
    (j : ℕ) : classCount n y j = (spec_classVectors n d x y j).length := by
  unfold classCount classIdx spec_classVectors
  rw [List.length_map, ← sum_map_one (((List.finRange n)).filter (fun i => y i = j))]
  rw [sum_map_filter_eq (fun i => y i = j) (fun _ => (1 : ℕ)) (List.finRange n)]
  rw [sum_map_finRange]
  rw [Finset.card_filter]

theorem sum_classIdx_eq (n : ℕ) (y : Fin n → ℕ) (j : ℕ) (f : Fin n → ℚ) :
    ∑ i ∈ classIdx n y j, f i
      = (((List.finRange n).filter (fun i => y i = j)).map f).sum := by
  unfold classIdx
  rw [Finset.sum_filter, sum_map_filter_eq (fun i => y i = j) f (List.finRange n),
    sum_map_finRange]

/-- The loop's columnwise mean agrees with the spec's element-wise average of
the class vectors. -/
theorem classMeanFun_eq_spec (n d : ℕ) (x : Fin n → Fin d → ℚ) (y : Fin n → ℕ)
    (j : ℕ) : classMeanFun n d x y j = spec_mean n d x y j := by
  funext c
  unfold classMeanFun spec_mean
  rw [classCount_eq_length n d x y j, sum_classIdx_eq]
  unfold spec_classVectors
  rw [List.map_map]
  rfl

/-- The loop's `np.cov(..., bias=1)` agrees with the spec's biased empirical
covariance of the class vectors. -/
theorem classCov_eq_spec (n d : ℕ) (x : Fin n → Fin d → ℚ) (y : Fin n → ℕ)
    (j : ℕ) (h : classCount n y j ≠ 0) :
    classCov n d x y j = some (spec_rawCov n d x y j) := by
  unfold classCov
  rw [if_neg h]
  congr 1
  funext a b
  unfold spec_rawCov
  rw [classMeanFun_eq_spec, classCount_eq_length n d x y j, sum_classIdx_eq]
  unfold spec_classVectors
  rw [List.map_map]
  rfl

/-- All-zero training matrix, used as a concrete input. -/
def xConst (n d : ℕ) : Fin n → Fin d → ℚ := fun _ _ => 0

/-- Label vector assigning example `i` the label `i`, one example per class. -/
def yId (n : ℕ) : Fin n → ℕ := fun i => (i : ℕ)

/-- Claim C3: for every training set (with the 784 features of this domain:
the regularization line adds `np.identity(784)`, so the fitter only completes
for d = 784) in which every class 0..9 has at least one example, the fitter
returns `prior[j]` = (count of examples labelled j)/N, `mean[j]` = the
element-wise average of the class-j vectors, and a raw covariance (the
`np.cov` result before regularization) equal to the biased divide-by-count
empirical covariance of the class-j vectors. -/
theorem C3_fit_components (n : ℕ) (x : Fin n → Fin 784 → ℚ) (y : Fin n → ℕ)
    (hall : ∀ j : Fin 10, classCount n y (j : ℕ) ≠ 0) :
    ∃ mu sigma pr, fit_generative_model n 784 x y = some (mu, sigma, pr) ∧
      ∀ j : Fin 10,
        pr j = spec_prior n 784 x y (j : ℕ) ∧
        mu j = some (spec_mean n 784 x y (j : ℕ)) ∧
        classCov n 784 x y (j : ℕ) = some (spec_rawCov n 784 x y (j : ℕ)) := by
  have hn : n ≠ 0 := by
    intro hn0
    subst hn0
    exact hall 0 (by simp [classCount, classIdx])
  refine ⟨fun j => classMean n 784 x y (j : ℕ),
    fun j => (classCov n 784 x y (j : ℕ)).map
      (fun S a b => S a b + if a = b then 3100 else 0),
    fun j => classPrior n y (j : ℕ), ?_, ?_⟩
  · unfold fit_generative_model
    rw [if_neg hn, if_pos rfl]
  · intro j
    refine ⟨?_, ?_, ?_⟩
    · show classPrior n y (j : ℕ) = spec_prior n 784 x y (j : ℕ)
      unfold classPrior spec_prior
      rw [classCount_eq_length n 784 x y (j : ℕ)]
    · show classMean n 784 x y (j : ℕ) = some (spec_mean n 784 x y (j : ℕ))
      unfold classMean
      rw [if_neg (hall j), classMeanFun_eq_spec]
    · exact classCov_eq_spec n 784 x y (j : ℕ) (hall j)

/-- Claim C3 witness: the component equations instantiated on a concrete
training set with one example per class. -/
theorem C3_witness :
    (∀ j : Fin 10, classCount 10 (yId 10) (j : ℕ) ≠ 0) ∧
    ∃ mu sigma pr,
      fit_generative_model 10 784 (xConst 10 784) (yId 10) = some (mu, sigma, pr) ∧
      ∀ j : Fin 10,
        pr j = spec_prior 10 784 (xConst 10 784) (yId 10) (j : ℕ) ∧
        mu j = some (spec_mean 10 784 (xConst 10 784) (yId 10) (j : ℕ)) ∧
        classCov 10 784 (xConst 10 784) (yId 10) (j : ℕ)
          = some (spec_rawCov 10 784 (xConst 10 784) (yId 10) (j : ℕ)) :=
  ⟨by decide, C3_fit_components 10 (xConst 10 784) (yId 10) (by decide)⟩

/-- Claim C4 counterexample: the fitter has no caller-supplied regularization
constant: with an all-zero training set (raw covariance identically 0) the
returned covariance entry (0,0) is the literal 3100, not
`raw_covariance + c·I` for the caller's choice `c = 0` (which would demand
entry 0). -/
theorem C4_counterexample :
    ∃ mu sigma pr,
      fit_generative_model 10 784 (xConst 10 784) (yId 10) = some (mu, sigma, pr) ∧
      (sigma 0).map (fun S => S 0 0) = some 3100 ∧
      (classCov 10 784 (xConst 10 784) (yId 10) 0).map (fun S => S 0 0) = some 0 ∧
      (3100 : ℚ) ≠ 0 := by
  have hcount : classCount 10 (yId 10) 0 ≠ 0 := by decide
  have hmean : ∀ c, classMeanFun 10 784 (xConst 10 784) (yId 10) 0 c = 0 := by
    intro c
    unfold classMeanFun xConst
    simp
  have hcov : classCov 10 784 (xConst 10 784) (yId 10) 0
      = some (fun _ _ => 0) := by
    unfold classCov
    rw [if_neg hcount]
    congr 1
    funext a b
    simp [xConst, hmean]
  refine ⟨fun j => classMean 10 784 (xConst 10 784) (yId 10) (j : ℕ),
    fun j => (classCov 10 784 (xConst 10 784) (yId 10) (j : ℕ)).map
      (fun S a b => S a b + if a = b then 3100 else 0),
    fun j => classPrior 10 (yId 10) (j : ℕ), ?_, ?_, ?_, by norm_num⟩
  · unfold fit_generative_model
    rw [if_neg (by norm_num), if_pos rfl]
  · show ((classCov 10 784 (xConst 10 784) (yId 10) ((0 : Fin 10) : ℕ)).map
      (fun S a b => S a b + if a = b then 3100 else 0)).map (fun S => S 0 0) = some 3100
    rw [show ((0 : Fin 10) : ℕ) = 0 from rfl, hcov]
    simp
  · rw [hcov]
    simp

/-- Claim C4 (amended): `fit_generative_model` takes only `(x, y)`: the class
count is the fixed literal `k = 10` and the regularization constant is the
fixed literal `3100` (no caller-supplied `c`, no internal search).  The added
identity is the literal `np.identity(784)`, so for every feature count other
than 784 the in-place addition raises a broadcast `ValueError` and nothing is
returned; for the domain's `d = 784`, every class with at least one example
gets covariance `raw_covariance + 3100·Identity(784)`. -/
theorem C4_fixed_regularization (n : ℕ) (x : Fin n → Fin 784 → ℚ)
    (y : Fin n → ℕ) (j : Fin 10) (hn : n ≠ 0)
    (hj : classCount n y (j : ℕ) ≠ 0) :
    (∀ (d : ℕ) (x' : Fin n → Fin d → ℚ), d ≠ 784 →
      fit_generative_model n d x' y = none) ∧
    ∃ mu sigma pr, fit_generative_model n 784 x y = some (mu, sigma, pr) ∧
      ∃ S, classCov n 784 x y (j : ℕ) = some S ∧
        sigma j = some (fun a b => S a b + if a = b then 3100 else 0) := by
  refine ⟨?_, fun j => classMean n 784 x y (j : ℕ),
    fun j => (classCov n 784 x y (j : ℕ)).map
      (fun S a b => S a b + if a = b then 3100 else 0),
    fun j => classPrior n y (j : ℕ), ?_, ?_⟩
  · intro d x' hd
    unfold fit_generative_model
    rw [if_neg hn, if_neg hd]
  · unfold fit_generative_model
    rw [if_neg hn, if_pos rfl]
  · refine ⟨fun a b => (∑ i ∈ classIdx n y (j : ℕ),
        (x i a - classMeanFun n 784 x y (j : ℕ) a) *
        (x i b - classMeanFun n 784 x y (j : ℕ) b)) / (classCount n y (j : ℕ) : ℚ),
      ?_, ?_⟩
    · unfold classCov
      rw [if_neg hj]
    · show (classCov n 784 x y (j : ℕ)).map
        (fun S a b => S a b + if a = b then 3100 else 0) = _
      unfold classCov
      rw [if_neg hj]
      rfl

/-- Claim C4 witness: the amended regularization equation instantiated on a
concrete training set. -/
theorem C4_witness :
    ((10 : ℕ) ≠ 0 ∧ classCount 10 (yId 10) ((0 : Fin 10) : ℕ) ≠ 0) ∧
    (∀ (d : ℕ) (x' : Fin 10 → Fin d → ℚ), d ≠ 784 →
      fit_generative_model 10 d x' (yId 10) = none) ∧
    ∃ mu sigma pr,
      fit_generative_model 10 784 (xConst 10 784) (yId 10) = some (mu, sigma, pr) ∧
      ∃ S, classCov 10 784 (xConst 10 784) (yId 10) ((0 : Fin 10) : ℕ) = some S ∧
        sigma 0 = some (fun a b => S a b + if a = b then 3100 else 0) :=
  ⟨⟨by decide, by decide⟩,
    C4_fixed_regularization 10 (xConst 10 784) (yId 10) 0
      (by decide) (by decide)⟩

/-- Claim C8 counterexample: on a training set whose class 1 has no examples
the fitter does not fail: it returns a complete model whose class-1 mean and
covariance are NaN (modelled `none`) and whose class-1 prior is 0, with the
class-0 prior equal to 1. -/
theorem C8_counterexample :
    ∃ mu sigma pr,
      fit_generative_model 1 784 (xConst 1 784) (fun _ => 0) = some (mu, sigma, pr) ∧
      mu 1 = none ∧ sigma 1 = none ∧ pr 1 = 0 ∧ pr 0 = 1 := by
  have hj : classCount 1 (fun _ => 0) 1 = 0 := by decide
  have h0 : classCount 1 (fun _ => 0) 0 = 1 := by decide
  refine ⟨fun j => classMean 1 784 (xConst 1 784) (fun _ => 0) (j : ℕ),
    fun j => (classCov 1 784 (xConst 1 784) (fun _ => 0) (j : ℕ)).map
      (fun S a b => S a b + if a = b then 3100 else 0),
    fun j => classPrior 1 (fun _ => 0) (j : ℕ), ?_, ?_, ?_, ?_, ?_⟩
  · unfold fit_generative_model
    rw [if_neg (by norm_num), if_pos rfl]
  · show classMean 1 784 (xConst 1 784) (fun _ => 0) ((1 : Fin 10) : ℕ) = none
    unfold classMean
    rw [if_pos (by exact hj)]
  · show (classCov 1 784 (xConst 1 784) (fun _ => 0) ((1 : Fin 10) : ℕ)).map
      (fun S a b => S a b + if a = b then 3100 else 0) = none
    unfold classCov
    rw [if_pos (by exact hj)]
    rfl
  · show classPrior 1 (fun _ => 0) ((1 : Fin 10) : ℕ) = 0
    unfold classPrior
    rw [show ((1 : Fin 10) : ℕ) = 1 from rfl, hj]
    simp
  · show classPrior 1 (fun _ => 0) ((0 : Fin 10) : ℕ) = 1
    unfold classPrior
    rw [show ((0 : Fin 10) : ℕ) = 0 from rfl, h0]
    norm_num

/-- Claim C8 (amended): for every nonempty training set with the domain's 784
features in which class `j` has zero examples, the fitter does not fail: the
loop completes (`np.mean`/`np.cov` of an empty selection warn and produce
NaN), and a complete model is returned in which class `j`'s mean and
covariance entries are NaN (modelled `none`) and class `j`'s prior is 0.
(For any other feature count the fitter raises at the `sigma += 3100*I`
line — see C4 — regardless of empty classes.) -/
theorem C8_empty_class_yields_nan (n : ℕ) (x : Fin n → Fin 784 → ℚ)
    (y : Fin n → ℕ) (j : Fin 10) (hn : n ≠ 0)
    (hj : classCount n y (j : ℕ) = 0) :
    ∃ mu sigma pr, fit_generative_model n 784 x y = some (mu, sigma, pr) ∧
      mu j = none ∧ sigma j = none ∧ pr j = 0 := by
  refine ⟨fun j => classMean n 784 x y (j : ℕ),
    fun j => (classCov n 784 x y (j : ℕ)).map
      (fun S a b => S a b + if a = b then 3100 else 0),
    fun j => classPrior n y (j : ℕ), ?_, ?_, ?_, ?_⟩
  · unfold fit_generative_model
    rw [if_neg hn, if_pos rfl]
  · show classMean n 784 x y (j : ℕ) = none
    unfold classMean
    rw [if_pos hj]
  · show (classCov n 784 x y (j : ℕ)).map
      (fun S a b => S a b + if a = b then 3100 else 0) = none
    unfold classCov
    rw [if_pos hj]
    rfl
  · show classPrior n y (j : ℕ) = 0
    unfold classPrior
    rw [hj]
    simp

/-- Claim C8 witness: the amended NaN behaviour instantiated on a concrete
784-feature training set whose class 1 is empty. -/
theorem C8_witness :
    ((1 : ℕ) ≠ 0 ∧ classCount 1 (fun _ => 0) ((1 : Fin 10) : ℕ) = 0) ∧
    ∃ mu sigma pr,
      fit_generative_model 1 784 (xConst 1 784) (fun _ => 0) = some (mu, sigma, pr) ∧
      mu 1 = none ∧ sigma 1 = none ∧ pr 1 = 0 :=
  ⟨⟨by decide, by decide⟩,
    C8_empty_class_yields_nan 1 (xConst 1 784) (fun _ => 0) 1
      (by decide) (by decide)⟩

/-- Real matrix obtained from a rational entry function. -/
def matR {d : ℕ} (S : Fin d → Fin d → ℚ) : Matrix (Fin d) (Fin d) ℝ :=
  Matrix.of (fun a b => ((S a b : ℚ) : ℝ))

theorem quad_sum_sq {ι : Type} (s : Finset ι) {d : ℕ} (g : ι → Fin d → ℝ)
    (v : Fin d → ℝ) :
    ∑ a : Fin d, ∑ b : Fin d, v a * (∑ i ∈ s, g i a * g i b) * v b
      = ∑ i ∈ s, (∑ a : Fin d, v a * g i a) ^ 2 := by
  have h1 : ∀ a b : Fin d,
      v a * (∑ i ∈ s, g i a * g i b) * v b
        = ∑ i ∈ s, (v a * g i a) * (v b * g i b) := by
    intro a b
    rw [Finset.mul_sum, Finset.sum_mul]
    exact Finset.sum_congr rfl (fun i _ => by ring)
  calc ∑ a : Fin d, ∑ b : Fin d, v a * (∑ i ∈ s, g i a * g i b) * v b
      = ∑ a : Fin d, ∑ b : Fin d, ∑ i ∈ s, (v a * g i a) * (v b * g i b) :=
        Finset.sum_congr rfl fun a _ => Finset.sum_congr rfl fun b _ => h1 a b
    _ = ∑ a : Fin d, ∑ i ∈ s, ∑ b : Fin d, (v a * g i a) * (v b * g i b) :=
        Finset.sum_congr rfl fun a _ => Finset.sum_comm
    _ = ∑ i ∈ s, ∑ a : Fin d, ∑ b : Fin d, (v a * g i a) * (v b * g i b) :=
        Finset.sum_comm
    _ = ∑ i ∈ s, (∑ a : Fin d, v a * g i a) * (∑ b : Fin d, v b * g i b) := by
        refine Finset.sum_congr rfl fun i _ => ?_
        rw [Finset.sum_mul_sum]
    _ = ∑ i ∈ s, (∑ a : Fin d, v a * g i a) ^ 2 := by
        refine Finset.sum_congr rfl fun i _ => ?_
        rw [sq]

/-- The quadratic form of an empirical covariance (a scaled sum of outer
products of deviations) is non-negative. -/
theorem quad_raw_nonneg {ι : Type} (s : Finset ι) {d : ℕ} (c : ℕ)
    (g : ι → Fin d → ℝ) (v : Fin d → ℝ) :
    0 ≤ ∑ a : Fin d, ∑ b : Fin d,
      v a * ((∑ i ∈ s, g i a * g i b) / (c : ℝ)) * v b := by
  have h1 : ∑ a : Fin d, ∑ b : Fin d, v a * ((∑ i ∈ s, g i a * g i b) / (c : ℝ)) * v b
      = (∑ a : Fin d, ∑ b : Fin d, v a * (∑ i ∈ s, g i a * g i b) * v b) / (c : ℝ) := by
    rw [Finset.sum_div]
    refine Finset.sum_congr rfl fun a _ => ?_
    rw [Finset.sum_div]
    refine Finset.sum_congr rfl fun b _ => ?_
    ring
  rw [h1, quad_sum_sq]
  apply div_nonneg
  · exact Finset.sum_nonneg fun i _ => sq_nonneg _
  · positivity

theorem diag_quad {d : ℕ} (t : ℝ) (v : Fin d → ℝ) :
    ∑ a : Fin d, ∑ b : Fin d, v a * (if a = b then t else 0) * v b
      = t * ∑ a : Fin d, v a * v a := by
  have h1 : ∀ a : Fin d,
      ∑ b : Fin d, v a * (if a = b then t else 0) * v b = t * (v a * v a) := by
    intro a
    have h2 : ∀ b : Fin d, v a * (if a = b then t else 0) * v b
        = if a = b then v a * t * v b else 0 := by
      intro b
      by_cases h : a = b
      · subst h; simp
      · simp [h]
    rw [Finset.sum_congr rfl fun b _ => h2 b, Fintype.sum_ite_eq]
    ring
  rw [Finset.sum_congr rfl fun a _ => h1 a, ← Finset.mul_sum]

/-- With the all-zero training matrix every class covariance (before
regularization) is the zero matrix. -/
theorem xConst_cov_zero (n d : ℕ) (y : Fin n → ℕ) (j : ℕ)
    (hj : classCount n y j ≠ 0) :
    classCov n d (xConst n d) y j = some (fun _ _ => 0) := by
  have hm : ∀ cc, classMeanFun n d (xConst n d) y j cc = 0 := by
    intro cc
    unfold classMeanFun xConst
    simp
  unfold classCov
  rw [if_neg hj]
  congr 1
  funext a b
  simp [xConst, hm]

/-- Claim C5 counterexample: with the fitter's fixed constant 3100, a
singleton class of the all-zero training set gets covariance `3100·I`, whose
eigenvector of all ones has eigenvalue 3100 < 10000; so the claim's
universally quantified floor (all eigenvalues at least c for every c > 0,
independent of the data) fails at c = 10000. -/
theorem C5_counterexample :
    ∃ mu sigma pr,
      fit_generative_model 10 784 (xConst 10 784) (yId 10) = some (mu, sigma, pr) ∧
      ∃ S, sigma 0 = some S ∧
        (matR S).mulVec (fun _ => 1)
          = (3100 : ℝ) • (fun _ => (1 : ℝ) : Fin 784 → ℝ) ∧
        (fun _ => (1 : ℝ) : Fin 784 → ℝ) ≠ 0 ∧
        (0 : ℝ) < 10000 ∧ (3100 : ℝ) < 10000 := by
  have hcount : classCount 10 (yId 10) 0 ≠ 0 := by decide
  have hcov := xConst_cov_zero 10 784 (yId 10) 0 hcount
  refine ⟨fun j => classMean 10 784 (xConst 10 784) (yId 10) (j : ℕ),
    fun j => (classCov 10 784 (xConst 10 784) (yId 10) (j : ℕ)).map
      (fun S a b => S a b + if a = b then 3100 else 0),
    fun j => classPrior 10 (yId 10) (j : ℕ), ?_, ?_⟩
  · unfold fit_generative_model
    rw [if_neg (by norm_num), if_pos rfl]
  · refine ⟨fun a b => if a = b then (3100 : ℚ) else 0, ?_, ?_, ?_, by norm_num,
      by norm_num⟩
    · show (classCov 10 784 (xConst 10 784) (yId 10) ((0 : Fin 10) : ℕ)).map
        (fun S a b => S a b + if a = b then 3100 else 0)
          = some (fun a b => if a = b then (3100 : ℚ) else 0)
      rw [show ((0 : Fin 10) : ℕ) = 0 from rfl, hcov]
      show some _ = some _
      congr 1
      funext a b
      simp
    · have hentry : ∀ a : Fin 784,
          (matR (fun a b => if a = b then (3100 : ℚ) else 0)).mulVec
            (fun _ => 1) a = 3100 := by
        intro a
        simp [matR, Matrix.mulVec, Matrix.dotProduct,
          apply_ite (fun q : ℚ => (q : ℝ))]
      funext a
      rw [hentry a]
      simp
    · intro h
      simpa using congrFun h 0

/-- Claim C5 (amended): with the code's fixed regularization constant 3100,
for every 784-feature training set (the only feature count for which the
fitter's `sigma += 3100*np.identity(784)` completes — see C4) and every class
with at least one example, the regularized covariance matrix is symmetric, its
real quadratic form is bounded below by `3100·|v|²` (so it is positive
definite), and every real eigenvalue is at least 3100 — regardless of how
singular the raw empirical covariance is. -/
theorem C5_covariance_floor (n : ℕ) (x : Fin n → Fin 784 → ℚ) (y : Fin n → ℕ)
    (j : Fin 10) (hn : n ≠ 0) (hj : classCount n y (j : ℕ) ≠ 0) :
    ∃ mu sigma pr, fit_generative_model n 784 x y = some (mu, sigma, pr) ∧
      ∃ S : Fin 784 → Fin 784 → ℚ, sigma j = some S ∧
        (∀ a b, S a b = S b a) ∧
        (∀ v : Fin 784 → ℝ,
          3100 * Matrix.dotProduct v v
            ≤ Matrix.dotProduct v ((matR S).mulVec v)) ∧
        (∀ v : Fin 784 → ℝ, v ≠ 0 →
          0 < Matrix.dotProduct v ((matR S).mulVec v)) ∧
        (∀ (ev : ℝ) (v : Fin 784 → ℝ), v ≠ 0 →
          (matR S).mulVec v = ev • v → 3100 ≤ ev) := by
  refine ⟨fun j => classMean n 784 x y (j : ℕ),
    fun j => (classCov n 784 x y (j : ℕ)).map
      (fun S a b => S a b + if a = b then 3100 else 0),
    fun j => classPrior n y (j : ℕ), ?_, ?_⟩
  · unfold fit_generative_model
    rw [if_neg hn, if_pos rfl]
  · have hbound : ∀ v : Fin 784 → ℝ,
        3100 * Matrix.dotProduct v v
          ≤ Matrix.dotProduct v ((matR (fun a b =>
              (∑ i ∈ classIdx n y (j : ℕ),
                (x i a - classMeanFun n 784 x y (j : ℕ) a) *
                (x i b - classMeanFun n 784 x y (j : ℕ) b))
                / (classCount n y (j : ℕ) : ℚ)
                + (if a = b then 3100 else 0))).mulVec v) := by
      intro v
      have hM : ∀ a b : Fin 784,
          matR (fun a b =>
            (∑ i ∈ classIdx n y (j : ℕ),
              (x i a - classMeanFun n 784 x y (j : ℕ) a) *
              (x i b - classMeanFun n 784 x y (j : ℕ) b))
              / (classCount n y (j : ℕ) : ℚ)
              + (if a = b then 3100 else 0)) a b
            = (∑ i ∈ classIdx n y (j : ℕ),
                (((x i a : ℚ) : ℝ) - ((classMeanFun n 784 x y (j : ℕ) a : ℚ) : ℝ)) *
                (((x i b : ℚ) : ℝ) - ((classMeanFun n 784 x y (j : ℕ) b : ℚ) : ℝ)))
                / ((classCount n y (j : ℕ) : ℕ) : ℝ)
              + (if a = b then (3100 : ℝ) else 0) := by
        intro a b
        show (((∑ i ∈ classIdx n y (j : ℕ),
            (x i a - classMeanFun n 784 x y (j : ℕ) a) *
            (x i b - classMeanFun n 784 x y (j : ℕ) b))
            / (classCount n y (j : ℕ) : ℚ)
            + (if a = b then 3100 else 0) : ℚ) : ℝ) = _
        push_cast [apply_ite (fun q : ℚ => (q : ℝ))]
        ring
      have hcalc : Matrix.dotProduct v ((matR (fun a b =>
            (∑ i ∈ classIdx n y (j : ℕ),
              (x i a - classMeanFun n 784 x y (j : ℕ) a) *
              (x i b - classMeanFun n 784 x y (j : ℕ) b))
              / (classCount n y (j : ℕ) : ℚ)
              + (if a = b then 3100 else 0))).mulVec v)
          = (∑ a : Fin 784, ∑ b : Fin 784,
              v a * ((∑ i ∈ classIdx n y (j : ℕ),
                (((x i a : ℚ) : ℝ) - ((classMeanFun n 784 x y (j : ℕ) a : ℚ) : ℝ)) *
                (((x i b : ℚ) : ℝ) - ((classMeanFun n 784 x y (j : ℕ) b : ℚ) : ℝ)))
                / ((classCount n y (j : ℕ) : ℕ) : ℝ)) * v b)
            + 3100 * ∑ a : Fin 784, v a * v a := by
        calc Matrix.dotProduct v ((matR (fun a b =>
              (∑ i ∈ classIdx n y (j : ℕ),
                (x i a - classMeanFun n 784 x y (j : ℕ) a) *
                (x i b - classMeanFun n 784 x y (j : ℕ) b))
                / (classCount n y (j : ℕ) : ℚ)
                + (if a = b then 3100 else 0))).mulVec v)
            = ∑ a : Fin 784, v a * ∑ b : Fin 784, matR (fun a b =>
                (∑ i ∈ classIdx n y (j : ℕ),
                  (x i a - classMeanFun n 784 x y (j : ℕ) a) *
                  (x i b - classMeanFun n 784 x y (j : ℕ) b))
                  / (classCount n y (j : ℕ) : ℚ)
                  + (if a = b then 3100 else 0)) a b * v b := rfl
          _ = ∑ a : Fin 784, ∑ b : Fin 784,
                (v a * ((∑ i ∈ classIdx n y (j : ℕ),
                  (((x i a : ℚ) : ℝ) - ((classMeanFun n 784 x y (j : ℕ) a : ℚ) : ℝ)) *
                  (((x i b : ℚ) : ℝ) - ((classMeanFun n 784 x y (j : ℕ) b : ℚ) : ℝ)))
                  / ((classCount n y (j : ℕ) : ℕ) : ℝ)) * v b
                + v a * (if a = b then (3100 : ℝ) else 0) * v b) := by
              refine Finset.sum_congr rfl fun a _ => ?_
              rw [Finset.mul_sum]
              refine Finset.sum_congr rfl fun b _ => ?_
              rw [hM a b]
              ring
          _ = (∑ a : Fin 784, ∑ b : Fin 784,
                v a * ((∑ i ∈ classIdx n y (j : ℕ),
                  (((x i a : ℚ) : ℝ) - ((classMeanFun n 784 x y (j : ℕ) a : ℚ) : ℝ)) *
                  (((x i b : ℚ) : ℝ) - ((classMeanFun n 784 x y (j : ℕ) b : ℚ) : ℝ)))
                  / ((classCount n y (j : ℕ) : ℕ) : ℝ)) * v b)
              + ∑ a : Fin 784, ∑ b : Fin 784,
                v a * (if a = b then (3100 : ℝ) else 0) * v b :=
              Eq.trans (Finset.sum_congr rfl fun a _ => Finset.sum_add_distrib)
                Finset.sum_add_distrib
          _ = _ := by rw [diag_quad]
      rw [hcalc, show Matrix.dotProduct v v = ∑ a : Fin 784, v a * v a from rfl]
      have qnn := quad_raw_nonneg (classIdx n y (j : ℕ)) (classCount n y (j : ℕ))
        (fun i a => ((x i a : ℚ) : ℝ) - ((classMeanFun n 784 x y (j : ℕ) a : ℚ) : ℝ)) v
      linarith
    have hvvpos : ∀ v : Fin 784 → ℝ, v ≠ 0 → 0 < Matrix.dotProduct v v := by
      intro v hv
      have h1 : 0 ≤ Matrix.dotProduct v v :=
        Finset.sum_nonneg fun a _ => mul_self_nonneg (v a)
      have h2 : Matrix.dotProduct v v ≠ 0 :=
        fun h0 => hv (Matrix.dotProduct_self_eq_zero.mp h0)
      exact lt_of_le_of_ne h1 (Ne.symm h2)
    refine ⟨fun a b => (∑ i ∈ classIdx n y (j : ℕ),
        (x i a - classMeanFun n 784 x y (j : ℕ) a) *
        (x i b - classMeanFun n 784 x y (j : ℕ) b)) / (classCount n y (j : ℕ) : ℚ)
        + (if a = b then 3100 else 0), ?_, ?_, ?_, ?_, ?_⟩
    · show (classCov n 784 x y (j : ℕ)).map
        (fun S a b => S a b + if a = b then 3100 else 0) = _
      unfold classCov
      rw [if_neg hj]
      rfl
    · intro a b
      dsimp only
      have hnum : (∑ i ∈ classIdx n y (j : ℕ),
          (x i a - classMeanFun n 784 x y (j : ℕ) a) *
          (x i b - classMeanFun n 784 x y (j : ℕ) b))
            = ∑ i ∈ classIdx n y (j : ℕ),
          (x i b - classMeanFun n 784 x y (j : ℕ) b) *
          (x i a - classMeanFun n 784 x y (j : ℕ) a) :=
        Finset.sum_congr rfl fun i _ => by ring
      have hite : (if a = b then (3100 : ℚ) else 0) = (if b = a then 3100 else 0) := by
        by_cases h : a = b
        · subst h; rfl
        · rw [if_neg h, if_neg (fun hba => h hba.symm)]
      rw [hnum, hite]
    · exact hbound
    · intro v hv
      have h1 := hbound v
      have h2 := hvvpos v hv
      linarith
    · intro ev v hv hev
      have h1 := hbound v
      have h2 := hvvpos v hv
      have h3 : Matrix.dotProduct v ((matR (fun a b =>
          (∑ i ∈ classIdx n y (j : ℕ),
            (x i a - classMeanFun n 784 x y (j : ℕ) a) *
            (x i b - classMeanFun n 784 x y (j : ℕ) b))
            / (classCount n y (j : ℕ) : ℚ)
            + (if a = b then 3100 else 0))).mulVec v)
          = ev * Matrix.dotProduct v v := by
        rw [hev, Matrix.dotProduct_smul, smul_eq_mul]
      rw [h3] at h1
      exact (mul_le_mul_right h2).mp h1

/-- Claim C5 witness: the amended eigenvalue floor instantiated on a concrete
training set (one all-zero example per class). -/
theorem C5_witness :
    ((10 : ℕ) ≠ 0 ∧ classCount 10 (yId 10) ((0 : Fin 10) : ℕ) ≠ 0) ∧
    ∃ mu sigma pr,
      fit_generative_model 10 784 (xConst 10 784) (yId 10) = some (mu, sigma, pr) ∧
      ∃ S : Fin 784 → Fin 784 → ℚ, sigma 0 = some S ∧
        (∀ a b, S a b = S b a) ∧
        (∀ v : Fin 784 → ℝ,
          3100 * Matrix.dotProduct v v
            ≤ Matrix.dotProduct v ((matR S).mulVec v)) ∧
        (∀ v : Fin 784 → ℝ, v ≠ 0 →
          0 < Matrix.dotProduct v ((matR S).mulVec v)) ∧
        (∀ (ev : ℝ) (v : Fin 784 → ℝ), v ≠ 0 →
          (matR S).mulVec v = ev • v → 3100 ≤ ev) :=
  ⟨⟨by decide, by decide⟩,
    C5_covariance_floor 10 (xConst 10 784) (yId 10) 0 (by decide) (by decide)⟩

/-! ### Generative classifier scorer

The scoring cell computes, for each label in `range(k)`,
`score[i,label] = np.log(pi[label]) + rv.logpdf(test_data[i,:])` where `rv`
is scipy's `multivariate_normal(mean=mu[label], cov=sigma[label])`, and then
`predictions = np.argmax(score, axis=1)`.  scipy's `logpdf` is library code
not in the repository, so it is modelled from the spec. -/

/-- Modelled from the spec: the standard multivariate-normal
log-probability-density (scipy's `multivariate_normal.logpdf`, library code
not in src/): `-1/2 (d·log(2π) + log det Σ + (x-μ)ᵀ Σ⁻¹ (x-μ))`. -/
noncomputable def mvn_logpdf (d : ℕ) (mu : Fin d → ℝ)
    (S : Matrix (Fin d) (Fin d) ℝ) (x : Fin d → ℝ) : ℝ :=
  -(1 / 2 : ℝ) * ((d : ℝ) * Real.log (2 * Real.pi) + Real.log S.det +
    Matrix.dotProduct (fun c => x c - mu c) (S⁻¹.mulVec (fun c => x c - mu c)))

/-- One row of the scoring cell: `np.log(pi[label]) + rv.logpdf(x)` for
`label in range(0, k)`. -/
noncomputable def gm_scores (k d : ℕ) (prior : ℕ → ℝ) (mu : ℕ → Fin d → ℝ)
    (S : ℕ → Matrix (Fin d) (Fin d) ℝ) (x : Fin d → ℝ) : List ℝ :=
  (List.range k).map (fun label => Real.log (prior label) + mvn_logpdf d (mu label) (S label) x)

/-- `predictions = np.argmax(score, axis=1)`: the predicted label of one
query. -/
noncomputable def gm_predict (k d : ℕ) (prior : ℕ → ℝ) (mu : ℕ → Fin d → ℝ)
    (S : ℕ → Matrix (Fin d) (Fin d) ℝ) (x : Fin d → ℝ) : Option ℕ :=
  np_argmax (gm_scores k d prior mu S x)

/-- Claim C2: for every query vector and every family of k fitted class
models, the scorer computes `score[j] = log(prior[j]) + ` the
multivariate-normal log-density of the query under `(mean[j], covariance[j])`,
and the predicted label is the argmax of the scores with ties broken in favour
of the smallest class index. -/
theorem C2_scorer_argmax (k d : ℕ) (prior : ℕ → ℝ) (mu : ℕ → Fin d → ℝ)
    (S : ℕ → Matrix (Fin d) (Fin d) ℝ) (x : Fin d → ℝ) (hk : 0 < k) :
    (∀ j, j < k → (gm_scores k d prior mu S x).getD j 0
        = Real.log (prior j) + mvn_logpdf d (mu j) (S j) x) ∧
    ∃ p, gm_predict k d prior mu S x = some p ∧ p < k ∧
      (∀ j, j < k → (gm_scores k d prior mu S x).getD j 0
        ≤ (gm_scores k d prior mu S x).getD p 0) ∧
      (∀ j, j < p → (gm_scores k d prior mu S x).getD j 0
        < (gm_scores k d prior mu S x).getD p 0) := by
  have hsc : ∀ j, j < k → (gm_scores k d prior mu S x).getD j 0
      = Real.log (prior j) + mvn_logpdf d (mu j) (S j) x := by
    intro j hj
    exact getD_map_range 0
      (fun label => Real.log (prior label) + mvn_logpdf d (mu label) (S label) x) k j hj
  refine ⟨hsc, ?_⟩
  have hne : gm_scores k d prior mu S x ≠ [] := by
    intro hcontra
    have := congrArg List.length hcontra
    simp [gm_scores] at this
    omega
  obtain ⟨m, p, hm, hp, hget, hle, hlt⟩ := argmaxIdx_spec 0 (gm_scores k d prior mu S x) hne
  have hplen : p < k := by
    have := hp
    simpa [gm_scores] using this
  refine ⟨p, ?_, hplen, ?_, ?_⟩
  · unfold gm_predict np_argmax
    rw [hm]
    rfl
  · intro t ht
    have := hle t (by simpa [gm_scores] using ht)
    rw [← hget] at this
    exact this
  · intro t ht
    have := hlt t ht
    rw [← hget] at this
    exact this

/-- Claim C2 witness: the scorer contract instantiated at a concrete pair of
fitted models and a concrete query. -/
theorem C2_witness :
    0 < 2 ∧
    ((∀ j, j < 2 → (gm_scores 2 1 (fun _ => 1) (fun _ _ => 0) (fun _ => 1)
        (fun _ => 0)).getD j 0
        = Real.log 1 + mvn_logpdf 1 (fun _ => 0) 1 (fun _ => 0)) ∧
      ∃ p, gm_predict 2 1 (fun _ => 1) (fun _ _ => 0) (fun _ => 1)
          (fun _ => 0) = some p ∧ p < 2 ∧
        (∀ j, j < 2 → (gm_scores 2 1 (fun _ => 1) (fun _ _ => 0) (fun _ => 1)
            (fun _ => 0)).getD j 0
          ≤ (gm_scores 2 1 (fun _ => 1) (fun _ _ => 0) (fun _ => 1)
            (fun _ => 0)).getD p 0) ∧
        (∀ j, j < p → (gm_scores 2 1 (fun _ => 1) (fun _ _ => 0) (fun _ => 1)
            (fun _ => 0)).getD j 0
          < (gm_scores 2 1 (fun _ => 1) (fun _ _ => 0) (fun _ => 1)
            (fun _ => 0)).getD p 0)) :=
  ⟨by decide,
    C2_scorer_argmax 2 1 (fun _ => 1) (fun _ _ => 0) (fun _ => 1) (fun _ => 0)
      (by decide)⟩

end Mnist
